import Mathlib

/-!
Verification of `fix_response_hash.py`.

The script iterates a fixed list of three file paths; for each path that
exists it reads the file, replaces every occurrence of the literal substring
`response.hash` by `response.id` (Python `str.replace`), writes the result
back, and prints a confirmation line; finally it prints a completion line.

File contents are modelled as `List Char`, the filesystem as a function
`String → FileState`, and the run as a fold over the path list producing the
final filesystem, the list of stdout lines, and an abort marker for an
unhandled I/O error.
-/

/-- Bool test of whether `p` is a leading segment of `s`
(the elementary comparison underlying Python `str.replace`). -/
def startsWith : List Char → List Char → Bool
  | [], _ => true
  | _ :: _, [] => false
  | p :: ps, c :: cs => p == c && startsWith ps cs

/-- Left-to-right scan that replaces each non-overlapping occurrence of `pat`
by `rep`, resuming after the matched segment: Python `content.replace(pat, rep)`
for a nonempty `pat` (source line 16). -/
def pyReplace (pat rep : List Char) : List Char → List Char
  | [] => []
  | c :: rest =>
    if startsWith pat (c :: rest) then
      rep ++ pyReplace pat rep (rest.drop (pat.length - 1))
    else
      c :: pyReplace pat rep rest
termination_by s => s.length
decreasing_by
  · simp only [List.length_drop, List.length_cons]; omega
  · simp only [List.length_cons]; omega

/-- Number of non-overlapping occurrences of `pat`, counted by the same
left-to-right scan that `pyReplace` performs (Python `str.count`). -/
def countOcc (pat : List Char) : List Char → Nat
  | [] => 0
  | c :: rest =>
    if startsWith pat (c :: rest) then
      1 + countOcc pat (rest.drop (pat.length - 1))
    else
      countOcc pat rest
termination_by s => s.length
decreasing_by
  · simp only [List.length_drop, List.length_cons]; omega
  · simp only [List.length_cons]; omega

/-- Bool test of whether `pat` occurs as a contiguous segment anywhere in `s`
(Python `pat in s`). -/
def occurs (pat : List Char) : List Char → Bool
  | [] => startsWith pat []
  | c :: rest => startsWith pat (c :: rest) || occurs pat rest

/-- The literal pattern `response.hash` from source line 16. -/
def hashPat : List Char := "response.hash".data

/-- The literal replacement `response.id` from source line 16. -/
def idRep : List Char := "response.id".data

/-- The content transformation the script applies to each existing file:
`content.replace('response.hash', 'response.id')` (source line 16). -/
def applyFix (s : List Char) : List Char := pyReplace hashPat idRep s

/-- State of one path on the filesystem: missing, present with readable and
writable text content, or present but failing on read/write with an I/O error. -/
inductive FileState where
  | absent : FileState
  | present (content : List Char) : FileState
  | inaccessible : FileState
deriving DecidableEq

/-- Whether the path holds a file that can actually be processed. -/
def FileState.isPresent : FileState → Bool
  | present _ => true
  | _ => false

/-- The hardcoded path list `services` from source lines 4 to 8. -/
def services : List String :=
  ["Blendv3/Services/PoolService.swift",
   "Blendv3/Services/BackstopContractService.swift",
   "Blendv3/Services/BlendOracleService.swift"]

/-- Writing content `c` to path `p`: the effect of `f.write(content)`
(source line 19) on the filesystem. -/
def updateFS (fs : String → FileState) (p : String) (c : List Char) :
    String → FileState :=
  fun q => if q = p then FileState.present c else fs q

/-- Observable result of a run: final filesystem, stdout lines in order, and
`some p` when the run aborted with an unhandled I/O error at path `p`. -/
structure RunOut where
  fs : String → FileState
  out : List String
  failed : Option String

/-- The `for service_file in services` loop of source lines 10 to 21:
skip a missing path, abort on an I/O error, otherwise read, transform,
write back and print the confirmation line. -/
def runLoop (fs : String → FileState) : List String → RunOut
  | [] => ⟨fs, [], none⟩
  | p :: rest =>
    match fs p with
    | FileState.absent => runLoop fs rest
    | FileState.inaccessible => ⟨fs, [], some p⟩
    | FileState.present c =>
      let r := runLoop (updateFS fs p (applyFix c)) rest
      ⟨r.fs, ("Updated " ++ p) :: r.out, r.failed⟩

/-- The whole script: run the loop over `services`; when it completes without
an unhandled error, additionally print `All services updated!` (source line 23). -/
def runScript (fs : String → FileState) : RunOut :=
  let r := runLoop fs services
  match r.failed with
  | none => ⟨r.fs, r.out ++ ["All services updated!"], none⟩
  | some q => ⟨r.fs, r.out, some q⟩

/-- No path of `ps` is in the error state on filesystem `fs`. -/
abbrev Accessible (fs : String → FileState) (ps : List String) : Prop :=
  ∀ q ∈ ps, fs q ≠ FileState.inaccessible

/-- Example filesystem: `PoolService.swift` holds `a=response.hash;`,
`BlendOracleService.swift` holds `b`, everything else is missing. -/
def fsA : String → FileState := fun q =>
  if q = "Blendv3/Services/PoolService.swift" then
    FileState.present ("a=response.hash;".data)
  else if q = "Blendv3/Services/BlendOracleService.swift" then
    FileState.present ("b".data)
  else FileState.absent

/-- Example filesystem with the same existing paths as `fsA` but different
contents. -/
def fsB : String → FileState := fun q =>
  if q = "Blendv3/Services/PoolService.swift" then
    FileState.present ("zzz".data)
  else if q = "Blendv3/Services/BlendOracleService.swift" then
    FileState.present ("response.hash".data)
  else FileState.absent

/-- Example filesystem whose second listed path raises an I/O error. -/
def fsC : String → FileState := fun q =>
  if q = "Blendv3/Services/PoolService.swift" then
    FileState.present ("response.hash".data)
  else if q = "Blendv3/Services/BackstopContractService.swift" then
    FileState.inaccessible
  else FileState.absent

/-! ### Basic facts about `startsWith` and `occurs` -/

theorem startsWith_iff (p : List Char) :
    ∀ s : List Char, startsWith p s = true ↔ ∃ t, s = p ++ t := by
  induction p with
  | nil =>
    intro s
    simp only [startsWith, List.nil_append]
    exact iff_of_true trivial ⟨s, rfl⟩
  | cons x p ih =>
    intro s
    cases s with
    | nil =>
      simp only [startsWith, List.cons_append]
      refine iff_of_false (by simp) ?_
      rintro ⟨t, ht⟩
      exact List.noConfusion ht
    | cons c s' =>
      simp only [startsWith, Bool.and_eq_true, beq_iff_eq, List.cons_append,
        List.cons.injEq, ih]
      constructor
      · rintro ⟨hx, t, ht⟩
        exact ⟨t, hx.symm, ht⟩
      · rintro ⟨t, hc, ht⟩
        exact ⟨hc.symm, t, ht⟩

theorem startsWith_length_le (p s : List Char) (h : startsWith p s = true) :
    p.length ≤ s.length := by
  obtain ⟨t, ht⟩ := (startsWith_iff p s).mp h
  subst ht
  simp only [List.length_append]
  omega

theorem startsWith_append_cases (a : List Char) :
    ∀ p b : List Char, startsWith p (a ++ b) = true →
      startsWith p a = true ∨ startsWith a p = true := by
  induction a with
  | nil =>
    intro p b _
    right
    rfl
  | cons x a' ih =>
    intro p b hsw
    cases p with
    | nil =>
      left
      rfl
    | cons y p' =>
      simp only [List.cons_append, startsWith, Bool.and_eq_true, beq_iff_eq] at hsw
      obtain ⟨hyx, hsw'⟩ := hsw
      rcases ih p' b hsw' with h | h
      · left
        simp only [startsWith, Bool.and_eq_true, beq_iff_eq]
        exact ⟨hyx, h⟩
      · right
        simp only [startsWith, Bool.and_eq_true, beq_iff_eq]
        exact ⟨hyx.symm, h⟩

theorem occurs_append_cases (pat : List Char) :
    ∀ l T : List Char, occurs pat (l ++ T) = true →
      (∃ l1 l2, l = l1 ++ l2 ∧ l2 ≠ [] ∧ startsWith pat (l2 ++ T) = true) ∨
        occurs pat T = true := by
  intro l
  induction l with
  | nil =>
    intro T h
    right
    simpa using h
  | cons a l' ih =>
    intro T h
    simp only [List.cons_append, occurs, Bool.or_eq_true] at h
    rcases h with h | h
    · left
      exact ⟨[], a :: l', rfl, List.cons_ne_nil a l', by simpa using h⟩
    · rcases ih T h with ⟨l1, l2, heq, hne, hsw⟩ | h'
      · left
        exact ⟨a :: l1, l2, by rw [heq, List.cons_append], hne, hsw⟩
      · right
        exact h'

/-! ### Unfolding equations for the scanning functions -/

theorem pyReplace_nil (pat rep : List Char) : pyReplace pat rep [] = [] := by
  rw [pyReplace]

theorem pyReplace_cons (pat rep : List Char) (c : Char) (rest : List Char) :
    pyReplace pat rep (c :: rest) =
      if startsWith pat (c :: rest) then
        rep ++ pyReplace pat rep (rest.drop (pat.length - 1))
      else
        c :: pyReplace pat rep rest := by
  rw [pyReplace]

theorem countOcc_nil (pat : List Char) : countOcc pat [] = 0 := by
  rw [countOcc]

theorem countOcc_cons (pat : List Char) (c : Char) (rest : List Char) :
    countOcc pat (c :: rest) =
      if startsWith pat (c :: rest) then
        1 + countOcc pat (rest.drop (pat.length - 1))
      else
        countOcc pat rest := by
  rw [countOcc]

/-- A string with no occurrence of the pattern is returned unchanged. -/
theorem pyReplace_of_occurs_eq_false (pat rep : List Char) :
    ∀ s : List Char, occurs pat s = false → pyReplace pat rep s = s := by
  intro s
  induction s with
  | nil =>
    intro _
    exact pyReplace_nil pat rep
  | cons c rest ih =>
    intro h
    simp only [occurs, Bool.or_eq_false_iff] at h
    rw [pyReplace_cons, if_neg (by simp [h.1]), ih h.2]

/-! ### The replaced text contains no further occurrence of the pattern

The next lemmas are generic in `pat` and `rep` but assume decidable
side conditions relating the two literals; they are discharged by `decide`
for `response.hash` and `response.id`. -/

/-- When no proper tail of `pat` aligns with `rep` in either direction, a
proper tail of `pat` heading the replaced text must already head the source. -/
theorem startsWith_drop_pyReplace (pat rep : List Char)
    (Hd : ∀ i, i < pat.length → 1 ≤ i →
      startsWith (pat.drop i) rep = false ∧ startsWith rep (pat.drop i) = false) :
    ∀ s : List Char, ∀ i, 1 ≤ i → i < pat.length →
      startsWith (pat.drop i) (pyReplace pat rep s) = true →
      startsWith (pat.drop i) s = true := by
  intro s
  induction s using pyReplace.induct pat rep with
  | case1 =>
    intro i h1 h2 hsw
    rw [pyReplace_nil] at hsw
    cases hpd : pat.drop i with
    | nil =>
      have hlen := congrArg List.length hpd
      simp only [List.length_drop, List.length_nil] at hlen
      omega
    | cons x xs =>
      rw [hpd] at hsw
      simp [startsWith] at hsw
  | case2 c rest hm ih =>
    intro i h1 h2 hsw
    rw [pyReplace_cons, if_pos hm] at hsw
    rcases startsWith_append_cases rep (pat.drop i) _ hsw with h | h
    · rw [(Hd i h2 h1).1] at h
      exact absurd h (by simp)
    · rw [(Hd i h2 h1).2] at h
      exact absurd h (by simp)
  | case3 c rest hnm ih =>
    intro i h1 h2 hsw
    rw [pyReplace_cons, if_neg hnm] at hsw
    have hcons : pat.drop i = pat[i] :: pat.drop (i + 1) :=
      List.drop_eq_getElem_cons h2
    rw [hcons] at hsw
    simp only [startsWith, Bool.and_eq_true] at hsw
    obtain ⟨heq, hrest⟩ := hsw
    by_cases hi : i + 1 < pat.length
    · have hih := ih (i + 1) (by omega) hi hrest
      rw [hcons]
      simp only [startsWith, Bool.and_eq_true]
      exact ⟨heq, hih⟩
    · have hieq : i + 1 = pat.length := by omega
      have hnil : pat.drop (i + 1) = [] := by
        rw [hieq]
        exact List.drop_length pat
      rw [hcons, hnil]
      simp only [startsWith, Bool.and_eq_true]
      exact ⟨heq, trivial⟩

/-- Under the same side condition, if the whole pattern heads the replaced
text then it already heads the source. -/
theorem startsWith_pat_pyReplace (pat rep : List Char) (hpat : pat ≠ [])
    (Hd : ∀ i, i < pat.length → 1 ≤ i →
      startsWith (pat.drop i) rep = false ∧ startsWith rep (pat.drop i) = false) :
    ∀ s : List Char, startsWith pat (pyReplace pat rep s) = true →
      startsWith pat s = true := by
  intro s hsw
  cases s with
  | nil =>
    rw [pyReplace_nil] at hsw
    cases pat with
    | nil => exact absurd rfl hpat
    | cons x xs => simp [startsWith] at hsw
  | cons c rest =>
    by_cases hm : startsWith pat (c :: rest) = true
    · exact hm
    · rw [pyReplace_cons, if_neg hm] at hsw
      cases pat with
      | nil => exact absurd rfl hpat
      | cons p0 pt =>
        simp only [startsWith, Bool.and_eq_true] at hsw
        obtain ⟨hp0, hrest⟩ := hsw
        by_cases hlen : pt = []
        · subst hlen
          simp only [startsWith, Bool.and_eq_true]
          exact ⟨hp0, trivial⟩
        · have h2 : 1 < (p0 :: pt).length := by
            have := List.length_pos_iff_ne_nil.mpr hlen
            simp only [List.length_cons]
            omega
          have hdrop : (p0 :: pt).drop 1 = pt := rfl
          have hpt := startsWith_drop_pyReplace (p0 :: pt) rep Hd rest 1
            (by omega) h2 (by rw [hdrop]; exact hrest)
          rw [hdrop] at hpt
          simp only [startsWith, Bool.and_eq_true]
          exact ⟨hp0, hpt⟩

/-- After one pass of `pyReplace` no occurrence of the pattern remains,
provided the replacement is shorter than the pattern, no proper tail of the
pattern aligns with the replacement, and no nonempty tail of the replacement
heads the pattern. -/
theorem occurs_pyReplace_eq_false (pat rep : List Char) (hpat : pat ≠ [])
    (hlen : rep.length < pat.length)
    (Hd : ∀ i, i < pat.length → 1 ≤ i →
      startsWith (pat.drop i) rep = false ∧ startsWith rep (pat.drop i) = false)
    (Hsuf : ∀ l1 l2 : List Char, rep = l1 ++ l2 → l2 ≠ [] →
      startsWith l2 pat = false) :
    ∀ s : List Char, occurs pat (pyReplace pat rep s) = false := by
  intro s
  induction s using pyReplace.induct pat rep with
  | case1 =>
    rw [pyReplace_nil]
    cases pat with
    | nil => exact absurd rfl hpat
    | cons x xs => simp [occurs, startsWith]
  | case2 c rest hm ih =>
    rw [pyReplace_cons, if_pos hm]
    rcases Bool.eq_false_or_eq_true
      (occurs pat (rep ++ pyReplace pat rep (rest.drop (pat.length - 1)))) with hb | hb
    case inr => exact hb
    · exfalso
      rcases occurs_append_cases pat rep _ hb with ⟨l1, l2, heq, hne, hsw⟩ | hocc
      · rcases startsWith_append_cases l2 pat _ hsw with h | h
        · have hple := startsWith_length_le pat l2 h
          have hl2 : l2.length ≤ rep.length := by
            rw [heq, List.length_append]
            omega
          omega
        · rw [Hsuf l1 l2 heq hne] at h
          simp at h
      · rw [ih] at hocc
        simp at hocc
  | case3 c rest hnm ih =>
    rw [pyReplace_cons, if_neg hnm]
    have h1 : startsWith pat (c :: pyReplace pat rep rest) = false := by
      rcases Bool.eq_false_or_eq_true
        (startsWith pat (c :: pyReplace pat rep rest)) with hb | hb
      case inr => exact hb
      · exfalso
        have hrw : pyReplace pat rep (c :: rest) = c :: pyReplace pat rep rest := by
          rw [pyReplace_cons, if_neg hnm]
        exact hnm (startsWith_pat_pyReplace pat rep hpat Hd (c :: rest)
          (by rw [hrw]; exact hb))
    simp [occurs, h1, ih]

/-! ### The concrete literals of the script -/

theorem hashPat_ne_nil : hashPat ≠ [] := by decide

theorem idRep_length_lt : idRep.length < hashPat.length := by decide

theorem hashPat_idRep_drop :
    ∀ i, i < hashPat.length → 1 ≤ i →
      startsWith (hashPat.drop i) idRep = false ∧
        startsWith idRep (hashPat.drop i) = false := by decide

theorem idRep_tails_no_match :
    ∀ l2 ∈ idRep.tails, l2 ≠ [] → startsWith l2 hashPat = false := by decide

theorem idRep_suffix_no_match (l1 l2 : List Char) (heq : idRep = l1 ++ l2)
    (hne : l2 ≠ []) : startsWith l2 hashPat = false :=
  idRep_tails_no_match l2 ((List.mem_tails l2 idRep).mpr ⟨l1, heq.symm⟩) hne

/-- One pass of the script's transformation leaves no occurrence of
`response.hash` behind. -/
theorem occurs_applyFix (s : List Char) : occurs hashPat (applyFix s) = false :=
  occurs_pyReplace_eq_false hashPat idRep hashPat_ne_nil idRep_length_lt
    hashPat_idRep_drop idRep_suffix_no_match s

/-- C2: applying the replacement transformation twice in succession yields
the same result as applying it once: the patch is idempotent at the content
level. -/
theorem applyFix_idempotent (s : List Char) : applyFix (applyFix s) = applyFix s :=
  pyReplace_of_occurs_eq_false hashPat idRep (applyFix s) (occurs_applyFix s)

/-- C4: the replacement is a pure literal substring operation with no
word-boundary awareness: `x.response.hash.y` becomes `x.response.id.y` and
`response.hashes` becomes `response.ides`. -/
theorem applyFix_no_word_boundary :
    applyFix "x.response.hash.y".data = "x.response.id.y".data ∧
      applyFix "response.hashes".data = "response.ides".data := by
  constructor <;> simp [applyFix, pyReplace, hashPat, idRep, startsWith]

/-- Exact length accounting for one pass of the transformation. -/
theorem applyFix_length (s : List Char) :
    (applyFix s).length + 2 * countOcc hashPat s = s.length := by
  unfold applyFix
  induction s using pyReplace.induct hashPat idRep with
  | case1 =>
    rw [pyReplace_nil, countOcc_nil]
    simp
  | case2 c rest hm ih =>
    rw [pyReplace_cons, if_pos hm, countOcc_cons, if_pos hm]
    have hle := startsWith_length_le hashPat (c :: rest) hm
    have h13 : hashPat.length = 13 := by decide
    have h11 : idRep.length = 11 := by decide
    simp only [List.length_append, List.length_cons, List.length_drop, h13, h11] at ih hle ⊢
    omega
  | case3 c rest hnm ih =>
    rw [pyReplace_cons, if_neg hnm, countOcc_cons, if_neg hnm]
    simp only [List.length_cons]
    omega

/-- C10: the final length equals the original length minus twice the number of
non-overlapping occurrences of the 13-character pattern, each being replaced
by the 11-character replacement. -/
theorem applyFix_length_formula (s : List Char) :
    (applyFix s).length = s.length - 2 * countOcc hashPat s ∧
      2 * countOcc hashPat s ≤ s.length := by
  have h := applyFix_length s
  omega

/-! ### Unfolding and frame lemmas for the script loop -/

theorem runLoop_nil (fs : String → FileState) : runLoop fs [] = ⟨fs, [], none⟩ :=
  rfl

theorem runLoop_cons_absent (fs : String → FileState) (p : String)
    (rest : List String) (h : fs p = FileState.absent) :
    runLoop fs (p :: rest) = runLoop fs rest := by
  simp only [runLoop, h]

theorem runLoop_cons_inacc (fs : String → FileState) (p : String)
    (rest : List String) (h : fs p = FileState.inaccessible) :
    runLoop fs (p :: rest) = ⟨fs, [], some p⟩ := by
  simp only [runLoop, h]

theorem runLoop_cons_present (fs : String → FileState) (p : String)
    (rest : List String) (c : List Char) (h : fs p = FileState.present c) :
    runLoop fs (p :: rest) =
      ⟨(runLoop (updateFS fs p (applyFix c)) rest).fs,
       ("Updated " ++ p) :: (runLoop (updateFS fs p (applyFix c)) rest).out,
       (runLoop (updateFS fs p (applyFix c)) rest).failed⟩ := by
  simp only [runLoop, h]

theorem updateFS_self (fs : String → FileState) (p : String) (c : List Char) :
    updateFS fs p c p = FileState.present c := by
  simp [updateFS]

theorem updateFS_ne (fs : String → FileState) (p q : String) (c : List Char)
    (h : q ≠ p) : updateFS fs p c q = fs q := by
  simp [updateFS, h]

theorem updateFS_isPresent (fs : String → FileState) (p : String)
    (c d : List Char) (h : fs p = FileState.present d) (q : String) :
    (updateFS fs p c q).isPresent = (fs q).isPresent := by
  by_cases hq : q = p
  · subst hq
    rw [updateFS_self, h]
    rfl
  · rw [updateFS_ne fs p q c hq]

theorem updateFS_acc (fs : String → FileState) (p : String) (c : List Char)
    (ps : List String) (h : Accessible fs ps) :
    Accessible (updateFS fs p c) ps := by
  intro q hq
  by_cases hqp : q = p
  · subst hqp
    rw [updateFS_self]
    intro hcon
    exact FileState.noConfusion hcon
  · rw [updateFS_ne fs p q c hqp]
    exact h q hq

/-- A loop over error-free paths never aborts. -/
theorem runLoop_failed_none :
    ∀ (ps : List String) (fs : String → FileState), Accessible fs ps →
      (runLoop fs ps).failed = none := by
  intro ps
  induction ps with
  | nil =>
    intro fs _
    rw [runLoop_nil]
  | cons p rest ih =>
    intro fs hacc
    have hp : fs p ≠ FileState.inaccessible := hacc p (List.mem_cons_self p rest)
    have hrest : Accessible fs rest := fun q hq => hacc q (List.mem_cons_of_mem p hq)
    cases hfp : fs p with
    | absent =>
      rw [runLoop_cons_absent fs p rest hfp]
      exact ih fs hrest
    | inaccessible => exact absurd hfp hp
    | present c =>
      rw [runLoop_cons_present fs p rest c hfp]
      exact ih (updateFS fs p (applyFix c)) (updateFS_acc fs p (applyFix c) rest hrest)

/-- On error-free paths the loop prints exactly one `Updated` line per
existing path, in list order. -/
theorem runLoop_out :
    ∀ (ps : List String) (fs : String → FileState), Accessible fs ps →
      (runLoop fs ps).out =
        (ps.filter fun p => (fs p).isPresent).map fun p => "Updated " ++ p := by
  intro ps
  induction ps with
  | nil =>
    intro fs _
    rw [runLoop_nil]
    rfl
  | cons p rest ih =>
    intro fs hacc
    have hp : fs p ≠ FileState.inaccessible := hacc p (List.mem_cons_self p rest)
    have hrest : Accessible fs rest := fun q hq => hacc q (List.mem_cons_of_mem p hq)
    cases hfp : fs p with
    | absent =>
      rw [runLoop_cons_absent fs p rest hfp]
      rw [List.filter_cons_of_neg (by rw [hfp]; simp [FileState.isPresent])]
      exact ih fs hrest
    | inaccessible => exact absurd hfp hp
    | present c =>
      rw [runLoop_cons_present fs p rest c hfp]
      rw [List.filter_cons_of_pos (by rw [hfp]; rfl)]
      simp only [List.map_cons]
      have hupd := ih (updateFS fs p (applyFix c))
        (updateFS_acc fs p (applyFix c) rest hrest)
      rw [hupd, List.filter_congr
        (fun q _ => updateFS_isPresent fs p (applyFix c) c hfp q)]

/-- Paths not on the list are never touched, whether the run aborts or not. -/
theorem runLoop_fs_not_mem :
    ∀ (ps : List String) (fs : String → FileState) (q : String), q ∉ ps →
      (runLoop fs ps).fs q = fs q := by
  intro ps
  induction ps with
  | nil =>
    intro fs q _
    rw [runLoop_nil]
  | cons p rest ih =>
    intro fs q hq
    have hqp : q ≠ p := fun h => hq (h ▸ List.mem_cons_self p rest)
    have hqrest : q ∉ rest := fun h => hq (List.mem_cons_of_mem p h)
    cases hfp : fs p with
    | absent =>
      rw [runLoop_cons_absent fs p rest hfp]
      exact ih fs q hqrest
    | inaccessible =>
      rw [runLoop_cons_inacc fs p rest hfp]
    | present c =>
      rw [runLoop_cons_present fs p rest c hfp]
      show (runLoop (updateFS fs p (applyFix c)) rest).fs q = fs q
      rw [ih (updateFS fs p (applyFix c)) q hqrest]
      exact updateFS_ne fs p q (applyFix c) hqp

/-- A path that is absent stays absent: the loop creates no file. -/
theorem runLoop_fs_absent :
    ∀ (ps : List String) (fs : String → FileState) (q : String),
      fs q = FileState.absent → (runLoop fs ps).fs q = FileState.absent := by
  intro ps
  induction ps with
  | nil =>
    intro fs q h
    rw [runLoop_nil]
    exact h
  | cons p rest ih =>
    intro fs q h
    cases hfp : fs p with
    | absent =>
      rw [runLoop_cons_absent fs p rest hfp]
      exact ih fs q h
    | inaccessible =>
      rw [runLoop_cons_inacc fs p rest hfp]
      exact h
    | present c =>
      rw [runLoop_cons_present fs p rest c hfp]
      have hqp : q ≠ p := by
        intro hqp
        rw [hqp, hfp] at h
        exact FileState.noConfusion h
      exact ih (updateFS fs p (applyFix c)) q
        (by rw [updateFS_ne fs p q (applyFix c) hqp]; exact h)

/-- On an error-free run, each existing listed file ends up holding exactly
the transformed version of its original content. -/
theorem runLoop_fs_present :
    ∀ (ps : List String) (fs : String → FileState) (p : String) (c : List Char),
      Accessible fs ps → ps.Nodup → p ∈ ps → fs p = FileState.present c →
      (runLoop fs ps).fs p = FileState.present (applyFix c) := by
  intro ps
  induction ps with
  | nil =>
    intro fs p c _ _ hp _
    exact absurd hp (List.not_mem_nil p)
  | cons a rest ih =>
    intro fs p c hacc hnd hp hc
    have hrest : Accessible fs rest := fun q hq => hacc q (List.mem_cons_of_mem a hq)
    have hndr : rest.Nodup := (List.nodup_cons.mp hnd).2
    have hanr : a ∉ rest := (List.nodup_cons.mp hnd).1
    cases hfa : fs a with
    | absent =>
      rw [runLoop_cons_absent fs a rest hfa]
      have hpa : p ≠ a := by
        intro h
        rw [h, hfa] at hc
        exact FileState.noConfusion hc
      have hprest : p ∈ rest := by
        rcases List.mem_cons.mp hp with h | h
        · exact absurd h hpa
        · exact h
      exact ih fs p c hrest hndr hprest hc
    | inaccessible => exact absurd hfa (hacc a (List.mem_cons_self a rest))
    | present ca =>
      rw [runLoop_cons_present fs a rest ca hfa]
      show (runLoop (updateFS fs a (applyFix ca)) rest).fs p = FileState.present (applyFix c)
      by_cases hpa : p = a
      · subst hpa
        have hcc : ca = c := by
          rw [hfa] at hc
          exact (FileState.present.injEq ca c).mp hc
        subst hcc
        rw [runLoop_fs_not_mem rest (updateFS fs p (applyFix ca)) p hanr]
        exact updateFS_self fs p (applyFix ca)
      · have hprest : p ∈ rest := by
          rcases List.mem_cons.mp hp with h | h
          · exact absurd h hpa
          · exact h
        exact ih (updateFS fs a (applyFix ca)) p c
          (updateFS_acc fs a (applyFix ca) rest hrest) hndr hprest
          (by rw [updateFS_ne fs a p (applyFix ca) hpa]; exact hc)

/-- The loop reads only the listed paths: two filesystems agreeing on the
list produce the same stdout and the same abort status. -/
theorem runLoop_agree :
    ∀ (ps : List String) (fs fs' : String → FileState),
      (∀ q ∈ ps, fs q = fs' q) →
      (runLoop fs ps).out = (runLoop fs' ps).out ∧
        (runLoop fs ps).failed = (runLoop fs' ps).failed := by
  intro ps
  induction ps with
  | nil =>
    intro fs fs' _
    rw [runLoop_nil, runLoop_nil]
    exact ⟨rfl, rfl⟩
  | cons p rest ih =>
    intro fs fs' hagree
    have hp : fs p = fs' p := hagree p (List.mem_cons_self p rest)
    have hrest : ∀ q ∈ rest, fs q = fs' q :=
      fun q hq => hagree q (List.mem_cons_of_mem p hq)
    cases hfp : fs p with
    | absent =>
      rw [runLoop_cons_absent fs p rest hfp,
        runLoop_cons_absent fs' p rest (by rw [← hp]; exact hfp)]
      exact ih fs fs' hrest
    | inaccessible =>
      rw [runLoop_cons_inacc fs p rest hfp,
        runLoop_cons_inacc fs' p rest (by rw [← hp]; exact hfp)]
      exact ⟨rfl, rfl⟩
    | present c =>
      rw [runLoop_cons_present fs p rest c hfp,
        runLoop_cons_present fs' p rest c (by rw [← hp]; exact hfp)]
      have hrest' : ∀ q ∈ rest,
          updateFS fs p (applyFix c) q = updateFS fs' p (applyFix c) q := by
        intro q hq
        by_cases hqp : q = p
        · subst hqp
          rw [updateFS_self, updateFS_self]
        · rw [updateFS_ne fs p q (applyFix c) hqp,
            updateFS_ne fs' p q (applyFix c) hqp]
          exact hrest q hq
      obtain ⟨hout, hfail⟩ :=
        ih (updateFS fs p (applyFix c)) (updateFS fs' p (applyFix c)) hrest'
      exact ⟨by rw [hout], by rw [hfail]⟩

/-! ### Behaviour of the loop when a path raises an I/O error -/

/-- The loop aborts at the first path in the error state. -/
theorem runLoop_abort_failed (p : String) (l2 : List String) :
    ∀ (l1 : List String) (fs : String → FileState), Accessible fs l1 →
      fs p = FileState.inaccessible →
      (runLoop fs (l1 ++ p :: l2)).failed = some p := by
  intro l1
  induction l1 with
  | nil =>
    intro fs _ hp
    rw [List.nil_append, runLoop_cons_inacc fs p l2 hp]
  | cons a l1' ih =>
    intro fs hacc hp
    have harest : Accessible fs l1' := fun q hq => hacc q (List.mem_cons_of_mem a hq)
    cases hfa : fs a with
    | absent =>
      rw [List.cons_append, runLoop_cons_absent fs a (l1' ++ p :: l2) hfa]
      exact ih fs harest hp
    | inaccessible => exact absurd hfa (hacc a (List.mem_cons_self a l1'))
    | present c =>
      rw [List.cons_append, runLoop_cons_present fs a (l1' ++ p :: l2) c hfa]
      have hpa : p ≠ a := by
        intro h
        rw [h, hfa] at hp
        exact FileState.noConfusion hp
      exact ih (updateFS fs a (applyFix c))
        (updateFS_acc fs a (applyFix c) l1' harest)
        (by rw [updateFS_ne fs a p (applyFix c) hpa]; exact hp)

/-- Before aborting, the loop has printed exactly the `Updated` lines of the
existing paths before the failing one, and nothing else. -/
theorem runLoop_abort_out (p : String) (l2 : List String) :
    ∀ (l1 : List String) (fs : String → FileState), Accessible fs l1 →
      fs p = FileState.inaccessible →
      (runLoop fs (l1 ++ p :: l2)).out =
        (l1.filter fun q => (fs q).isPresent).map fun q => "Updated " ++ q := by
  intro l1
  induction l1 with
  | nil =>
    intro fs _ hp
    rw [List.nil_append, runLoop_cons_inacc fs p l2 hp]
    rfl
  | cons a l1' ih =>
    intro fs hacc hp
    have harest : Accessible fs l1' := fun q hq => hacc q (List.mem_cons_of_mem a hq)
    cases hfa : fs a with
    | absent =>
      rw [List.cons_append, runLoop_cons_absent fs a (l1' ++ p :: l2) hfa]
      rw [List.filter_cons_of_neg (by rw [hfa]; simp [FileState.isPresent])]
      exact ih fs harest hp
    | inaccessible => exact absurd hfa (hacc a (List.mem_cons_self a l1'))
    | present c =>
      rw [List.cons_append, runLoop_cons_present fs a (l1' ++ p :: l2) c hfa]
      rw [List.filter_cons_of_pos (by rw [hfa]; rfl)]
      simp only [List.map_cons]
      have hpa : p ≠ a := by
        intro h
        rw [h, hfa] at hp
        exact FileState.noConfusion hp
      have hupd := ih (updateFS fs a (applyFix c))
        (updateFS_acc fs a (applyFix c) l1' harest)
        (by rw [updateFS_ne fs a p (applyFix c) hpa]; exact hp)
      rw [hupd, List.filter_congr
        (fun q _ => updateFS_isPresent fs a (applyFix c) c hfa q)]

/-- An aborting run leaves every path outside the already-processed part of
the list, including the failing path itself, untouched. -/
theorem runLoop_abort_fs_not_mem (p : String) (l2 : List String) :
    ∀ (l1 : List String) (fs : String → FileState) (q : String),
      Accessible fs l1 → fs p = FileState.inaccessible → q ∉ l1 →
      (runLoop fs (l1 ++ p :: l2)).fs q = fs q := by
  intro l1
  induction l1 with
  | nil =>
    intro fs q _ hp _
    rw [List.nil_append, runLoop_cons_inacc fs p l2 hp]
  | cons a l1' ih =>
    intro fs q hacc hp hq
    have harest : Accessible fs l1' := fun r hr => hacc r (List.mem_cons_of_mem a hr)
    have hqa : q ≠ a := fun h => hq (h ▸ List.mem_cons_self a l1')
    have hqrest : q ∉ l1' := fun h => hq (List.mem_cons_of_mem a h)
    cases hfa : fs a with
    | absent =>
      rw [List.cons_append, runLoop_cons_absent fs a (l1' ++ p :: l2) hfa]
      exact ih fs q harest hp hqrest
    | inaccessible => exact absurd hfa (hacc a (List.mem_cons_self a l1'))
    | present c =>
      rw [List.cons_append, runLoop_cons_present fs a (l1' ++ p :: l2) c hfa]
      have hpa : p ≠ a := by
        intro h
        rw [h, hfa] at hp
        exact FileState.noConfusion hp
      show (runLoop (updateFS fs a (applyFix c)) (l1' ++ p :: l2)).fs q = fs q
      rw [ih (updateFS fs a (applyFix c)) q
        (updateFS_acc fs a (applyFix c) l1' harest)
        (by rw [updateFS_ne fs a p (applyFix c) hpa]; exact hp) hqrest]
      exact updateFS_ne fs a q (applyFix c) hqa

/-- Files processed before the abort keep their patched contents: there is no
rollback. -/
theorem runLoop_abort_fs_patched (p : String) (l2 : List String) :
    ∀ (l1 : List String) (fs : String → FileState) (q : String) (c : List Char),
      Accessible fs l1 → fs p = FileState.inaccessible → l1.Nodup →
      q ∈ l1 → fs q = FileState.present c →
      (runLoop fs (l1 ++ p :: l2)).fs q = FileState.present (applyFix c) := by
  intro l1
  induction l1 with
  | nil =>
    intro fs q c _ _ _ hq _
    exact absurd hq (List.not_mem_nil q)
  | cons a l1' ih =>
    intro fs q c hacc hp hnd hq hc
    have harest : Accessible fs l1' := fun r hr => hacc r (List.mem_cons_of_mem a hr)
    have hndr : l1'.Nodup := (List.nodup_cons.mp hnd).2
    have hanr : a ∉ l1' := (List.nodup_cons.mp hnd).1
    cases hfa : fs a with
    | absent =>
      rw [List.cons_append, runLoop_cons_absent fs a (l1' ++ p :: l2) hfa]
      have hqa : q ≠ a := by
        intro h
        rw [h, hfa] at hc
        exact FileState.noConfusion hc
      have hqrest : q ∈ l1' := by
        rcases List.mem_cons.mp hq with h | h
        · exact absurd h hqa
        · exact h
      exact ih fs q c harest hp hndr hqrest hc
    | inaccessible => exact absurd hfa (hacc a (List.mem_cons_self a l1'))
    | present ca =>
      rw [List.cons_append, runLoop_cons_present fs a (l1' ++ p :: l2) ca hfa]
      have hpa : p ≠ a := by
        intro h
        rw [h, hfa] at hp
        exact FileState.noConfusion hp
      have hupdp : updateFS fs a (applyFix ca) p = FileState.inaccessible := by
        rw [updateFS_ne fs a p (applyFix ca) hpa]
        exact hp
      show (runLoop (updateFS fs a (applyFix ca)) (l1' ++ p :: l2)).fs q =
        FileState.present (applyFix c)
      by_cases hqa : q = a
      · subst hqa
        have hcc : ca = c := by
          rw [hfa] at hc
          exact (FileState.present.injEq ca c).mp hc
        subst hcc
        rw [runLoop_abort_fs_not_mem p l2 l1' (updateFS fs q (applyFix ca)) q
          (updateFS_acc fs q (applyFix ca) l1' harest) hupdp hanr]
        exact updateFS_self fs q (applyFix ca)
      · have hqrest : q ∈ l1' := by
          rcases List.mem_cons.mp hq with h | h
          · exact absurd h hqa
          · exact h
        exact ih (updateFS fs a (applyFix ca)) q c
          (updateFS_acc fs a (applyFix ca) l1' harest) hupdp hndr hqrest
          (by rw [updateFS_ne fs a q (applyFix ca) hqa]; exact hc)

/-! ### From the loop to the whole script -/

theorem runScript_fs (fs : String → FileState) :
    (runScript fs).fs = (runLoop fs services).fs := by
  simp only [runScript]
  cases h : (runLoop fs services).failed with
  | none => rfl
  | some q => rfl

theorem runScript_ok (fs : String → FileState)
    (h : (runLoop fs services).failed = none) :
    (runScript fs).out = (runLoop fs services).out ++ ["All services updated!"] ∧
      (runScript fs).failed = none := by
  simp only [runScript]
  rw [h]
  exact ⟨rfl, rfl⟩

theorem runScript_abort (fs : String → FileState) (q : String)
    (h : (runLoop fs services).failed = some q) :
    (runScript fs).out = (runLoop fs services).out ∧
      (runScript fs).failed = some q := by
  simp only [runScript]
  rw [h]
  exact ⟨rfl, rfl⟩

/-! ### Stdout line helpers -/

theorem updated_line_inj (p q : String)
    (h : "Updated " ++ p = "Updated " ++ q) : p = q := by
  have hdata := congrArg String.data h
  rw [String.data_append, String.data_append] at hdata
  exact String.ext (List.append_cancel_left hdata)

theorem updated_line_ne_final (p : String) :
    "Updated " ++ p ≠ "All services updated!" := by
  intro h
  have hdata := congrArg String.data h
  rw [String.data_append] at hdata
  have h2 : "Updated ".data = 'U' :: "pdated ".data := rfl
  have h3 : "All services updated!".data = 'A' :: "ll services updated!".data := rfl
  rw [h2, h3, List.cons_append] at hdata
  have := ((List.cons.injEq 'U' _ 'A' _).mp hdata).1
  exact absurd this (by decide)

/-! ### The claims about whole runs -/

/-- C1: on an error-free filesystem, every listed path that exists ends the
run holding exactly its original content with every non-overlapping occurrence
of `response.hash` replaced by `response.id`, left to right, and nothing else
changed. -/
theorem existing_file_content_replaced (fs : String → FileState) (p : String)
    (c : List Char) (hacc : Accessible fs services) (hp : p ∈ services)
    (hc : fs p = FileState.present c) :
    (runScript fs).fs p = FileState.present (applyFix c) := by
  rw [runScript_fs]
  exact runLoop_fs_present services fs p c hacc (by decide) hp hc

/-- C1 witness. -/
theorem existing_file_content_replaced_witness :
    Accessible fsA services ∧
      "Blendv3/Services/PoolService.swift" ∈ services ∧
      fsA "Blendv3/Services/PoolService.swift" =
        FileState.present ("a=response.hash;".data) ∧
      (runScript fsA).fs "Blendv3/Services/PoolService.swift" =
        FileState.present ("a=response.id;".data) := by
  refine ⟨by decide, by decide, by decide, ?_⟩
  have h := existing_file_content_replaced fsA "Blendv3/Services/PoolService.swift"
    ("a=response.hash;".data) (by decide) (by decide) (by decide)
  rw [h]
  have hfix : applyFix ("a=response.hash;".data) = "a=response.id;".data := by
    simp [applyFix, pyReplace, hashPat, idRep, startsWith]
  rw [hfix]

/-- C3: a listed path that is missing is skipped silently: no `Updated` line
is printed for it, no file is created at it, the run does not abort, and the
completion line is still the last line printed. -/
theorem missing_file_skipped_silently (fs : String → FileState) (p : String)
    (hacc : Accessible fs services) (hp : p ∈ services)
    (habs : fs p = FileState.absent) :
    ("Updated " ++ p) ∉ (runScript fs).out ∧
      (runScript fs).fs p = FileState.absent ∧
      (runScript fs).failed = none ∧
      (runScript fs).out.getLast? = some "All services updated!" := by
  have hnone := runLoop_failed_none services fs hacc
  obtain ⟨hout, hfail⟩ := runScript_ok fs hnone
  refine ⟨?_, ?_, hfail, ?_⟩
  · rw [hout, runLoop_out services fs hacc]
    intro hmem
    rcases List.mem_append.mp hmem with hmem | hmem
    · obtain ⟨q, hq, heq⟩ := List.mem_map.mp hmem
      obtain ⟨hqs, hqpres⟩ := List.mem_filter.mp hq
      rw [updated_line_inj q p heq, habs] at hqpres
      exact Bool.noConfusion hqpres
    · rw [List.mem_singleton] at hmem
      exact updated_line_ne_final p hmem
  · rw [runScript_fs]
    exact runLoop_fs_absent services fs p habs
  · rw [hout]
    exact List.getLast?_concat _

/-- C3 witness. -/
theorem missing_file_skipped_silently_witness :
    Accessible fsA services ∧
      "Blendv3/Services/BackstopContractService.swift" ∈ services ∧
      fsA "Blendv3/Services/BackstopContractService.swift" = FileState.absent ∧
      (("Updated " ++ "Blendv3/Services/BackstopContractService.swift") ∉
          (runScript fsA).out ∧
        (runScript fsA).fs "Blendv3/Services/BackstopContractService.swift" =
          FileState.absent ∧
        (runScript fsA).failed = none ∧
        (runScript fsA).out.getLast? = some "All services updated!") :=
  ⟨by decide, by decide, by decide,
    missing_file_skipped_silently fsA "Blendv3/Services/BackstopContractService.swift"
      (by decide) (by decide) (by decide)⟩

/-- C5: an existing listed file whose content has no occurrence of
`response.hash` still ends the run holding content identical to the original
and still gets its `Updated` confirmation line. -/
theorem zero_occurrence_file_rewritten_and_logged (fs : String → FileState)
    (p : String) (c : List Char) (hacc : Accessible fs services)
    (hp : p ∈ services) (hc : fs p = FileState.present c)
    (hno : occurs hashPat c = false) :
    (runScript fs).fs p = FileState.present c ∧
      ("Updated " ++ p) ∈ (runScript fs).out := by
  have hfix : applyFix c = c := pyReplace_of_occurs_eq_false hashPat idRep c hno
  constructor
  · rw [runScript_fs]
    have h := runLoop_fs_present services fs p c hacc (by decide) hp hc
    rw [hfix] at h
    exact h
  · obtain ⟨hout, _⟩ := runScript_ok fs (runLoop_failed_none services fs hacc)
    rw [hout, runLoop_out services fs hacc]
    apply List.mem_append_left
    apply List.mem_map.mpr
    exact ⟨p, List.mem_filter.mpr ⟨hp, by rw [hc]; rfl⟩, rfl⟩

/-- C5 witness. -/
theorem zero_occurrence_file_rewritten_and_logged_witness :
    Accessible fsA services ∧
      "Blendv3/Services/BlendOracleService.swift" ∈ services ∧
      fsA "Blendv3/Services/BlendOracleService.swift" =
        FileState.present ("b".data) ∧
      occurs hashPat ("b".data) = false ∧
      ((runScript fsA).fs "Blendv3/Services/BlendOracleService.swift" =
          FileState.present ("b".data) ∧
        ("Updated " ++ "Blendv3/Services/BlendOracleService.swift") ∈
          (runScript fsA).out) :=
  ⟨by decide, by decide, by decide, by decide,
    zero_occurrence_file_rewritten_and_logged fsA
      "Blendv3/Services/BlendOracleService.swift" ("b".data)
      (by decide) (by decide) (by decide) (by decide)⟩

/-- C6: on an error-free filesystem stdout is exactly one
`Updated <path>` line per existing listed path, in list order, followed by the
single final line `All services updated!`. -/
theorem stdout_lines_exact (fs : String → FileState)
    (hacc : Accessible fs services) :
    (runScript fs).out =
      ((services.filter fun p => (fs p).isPresent).map fun p => "Updated " ++ p) ++
        ["All services updated!"] := by
  obtain ⟨hout, _⟩ := runScript_ok fs (runLoop_failed_none services fs hacc)
  rw [hout, runLoop_out services fs hacc]

/-- C6 witness. -/
theorem stdout_lines_exact_witness :
    Accessible fsA services ∧
      (runScript fsA).out =
        ["Updated Blendv3/Services/PoolService.swift",
         "Updated Blendv3/Services/BlendOracleService.swift",
         "All services updated!"] := by
  refine ⟨by decide, ?_⟩
  rw [stdout_lines_exact fsA (by decide)]
  decide

/-- C7: when a listed path exists but raises an I/O error, the run aborts
there: the failure is unhandled, the completion line is never printed, files
processed earlier keep their patched contents with no rollback, and every
path at or after the failing one is left untouched. -/
theorem io_error_aborts_run (fs : String → FileState) (l1 l2 : List String)
    (p : String) (hsplit : services = l1 ++ p :: l2)
    (hacc : Accessible fs l1) (hp : fs p = FileState.inaccessible) :
    (runScript fs).failed = some p ∧
      (runScript fs).out =
        ((l1.filter fun q => (fs q).isPresent).map fun q => "Updated " ++ q) ∧
      (∀ q c, q ∈ l1 → fs q = FileState.present c →
        (runScript fs).fs q = FileState.present (applyFix c)) ∧
      (∀ q, q ∉ l1 → (runScript fs).fs q = fs q) := by
  have hfail : (runLoop fs services).failed = some p := by
    rw [hsplit]
    exact runLoop_abort_failed p l2 l1 fs hacc hp
  obtain ⟨hout, hfailS⟩ := runScript_abort fs p hfail
  have hnd : l1.Nodup := by
    have hs : services.Nodup := by decide
    rw [hsplit] at hs
    exact hs.of_append_left
  refine ⟨hfailS, ?_, ?_, ?_⟩
  · rw [hout, hsplit]
    exact runLoop_abort_out p l2 l1 fs hacc hp
  · intro q c hq hc
    rw [runScript_fs, hsplit]
    exact runLoop_abort_fs_patched p l2 l1 fs q c hacc hp hnd hq hc
  · intro q hq
    rw [runScript_fs, hsplit]
    exact runLoop_abort_fs_not_mem p l2 l1 fs q hacc hp hq

/-- C7 witness. -/
theorem io_error_aborts_run_witness :
    services = ["Blendv3/Services/PoolService.swift"] ++
        "Blendv3/Services/BackstopContractService.swift" ::
          ["Blendv3/Services/BlendOracleService.swift"] ∧
      Accessible fsC ["Blendv3/Services/PoolService.swift"] ∧
      fsC "Blendv3/Services/BackstopContractService.swift" =
        FileState.inaccessible ∧
      ((runScript fsC).failed =
          some "Blendv3/Services/BackstopContractService.swift" ∧
        (runScript fsC).out =
          ((["Blendv3/Services/PoolService.swift"].filter
              fun q => (fsC q).isPresent).map fun q => "Updated " ++ q) ∧
        (∀ q c, q ∈ ["Blendv3/Services/PoolService.swift"] →
          fsC q = FileState.present c →
          (runScript fsC).fs q = FileState.present (applyFix c)) ∧
        (∀ q, q ∉ ["Blendv3/Services/PoolService.swift"] →
          (runScript fsC).fs q = fsC q)) :=
  ⟨by decide, by decide, by decide,
    io_error_aborts_run fsC ["Blendv3/Services/PoolService.swift"]
      ["Blendv3/Services/BlendOracleService.swift"]
      "Blendv3/Services/BackstopContractService.swift"
      (by decide) (by decide) (by decide)⟩

/-- C8: the run never touches filesystem state outside the three listed paths,
and never reads outside them either: any path not on the list keeps its exact
prior state, and the observable output of the run is unchanged under any
modification of the filesystem outside the list. -/
theorem untouched_outside_fixed_list (fs fs' : String → FileState) (p : String)
    (hagree : ∀ q ∈ services, fs q = fs' q) (hp : p ∉ services) :
    (runScript fs).fs p = fs p ∧
      (runScript fs).out = (runScript fs').out ∧
      (runScript fs).failed = (runScript fs').failed := by
  obtain ⟨hout, hfail⟩ := runLoop_agree services fs fs' hagree
  refine ⟨?_, ?_, ?_⟩
  · rw [runScript_fs]
    exact runLoop_fs_not_mem services fs p hp
  · cases h : (runLoop fs services).failed with
    | none =>
      have h' : (runLoop fs' services).failed = none := by rw [← hfail, h]
      obtain ⟨ho, _⟩ := runScript_ok fs h
      obtain ⟨ho', _⟩ := runScript_ok fs' h'
      rw [ho, ho', hout]
    | some q =>
      have h' : (runLoop fs' services).failed = some q := by rw [← hfail, h]
      obtain ⟨ho, _⟩ := runScript_abort fs q h
      obtain ⟨ho', _⟩ := runScript_abort fs' q h'
      rw [ho, ho', hout]
  · cases h : (runLoop fs services).failed with
    | none =>
      have h' : (runLoop fs' services).failed = none := by rw [← hfail, h]
      rw [(runScript_ok fs h).2, (runScript_ok fs' h').2]
    | some q =>
      have h' : (runLoop fs' services).failed = some q := by rw [← hfail, h]
      rw [(runScript_abort fs q h).2, (runScript_abort fs' q h').2]

/-- C8 witness. -/
theorem untouched_outside_fixed_list_witness :
    (∀ q ∈ services, fsA q = fsA q) ∧
      "README.md" ∉ services ∧
      ((runScript fsA).fs "README.md" = fsA "README.md" ∧
        (runScript fsA).out = (runScript fsA).out ∧
        (runScript fsA).failed = (runScript fsA).failed) :=
  ⟨fun q _ => rfl, by decide,
    untouched_outside_fixed_list fsA fsA "README.md" (fun q _ => rfl) (by decide)⟩

/-- C9: on error-free filesystems, stdout depends only on which listed paths
exist, not on the contents of the files. -/
theorem stdout_depends_only_on_existence (fs fs' : String → FileState)
    (hacc : Accessible fs services) (hacc' : Accessible fs' services)
    (hpres : ∀ p ∈ services, (fs p).isPresent = (fs' p).isPresent) :
    (runScript fs).out = (runScript fs').out := by
  obtain ⟨hout, _⟩ := runScript_ok fs (runLoop_failed_none services fs hacc)
  obtain ⟨hout', _⟩ := runScript_ok fs' (runLoop_failed_none services fs' hacc')
  rw [hout, hout', runLoop_out services fs hacc, runLoop_out services fs' hacc',
    List.filter_congr hpres]

/-- C9 witness. -/
theorem stdout_depends_only_on_existence_witness :
    Accessible fsA services ∧
      Accessible fsB services ∧
      (∀ p ∈ services, (fsA p).isPresent = (fsB p).isPresent) ∧
      (runScript fsA).out = (runScript fsB).out :=
  ⟨by decide, by decide, by decide,
    stdout_depends_only_on_existence fsA fsB (by decide) (by decide) (by decide)⟩
